import Mathlib

/-!
# pokedex: the TTL cache (`internal/pokecache`) and `cleanInput` (`main.go`)

A shallow embedding of the cache of `internal/pokecache/pokecashe.go` and of
`cleanInput` and the head of the REPL loop of `main.go`, followed by the
theorems that settle the properties stated for them.

Conventions of the embedding

* `time.Time` values are readings of the monotonic clock in nanoseconds and
  `time.Duration` is a number of nanoseconds, both `Int`.  `time.Since` on
  monotonic readings is an exact subtraction (both readings are non-negative
  and far below `2^63`), so no wrap-around is modelled.
* The clock is passed explicitly: a function that calls `time.Now` or
  `time.Since` takes the reading as its argument `now`; a function that does
  not read the clock has no such argument.
* A Go `map[string]cacheEntry` is `Option (AList ...)`: `none` is the nil map
  of the zero `Cache`, `some m` an allocated map with unique keys.
* A Go `[]byte` is `Option (List UInt8)`: `none` is the nil slice.
* A panic is `Except.error` with the runtime's message.
* `fmt.Println("Evicted:", k)` only writes to standard output and is left out.
* A Go `string` is the list of runes a `range` over it yields (`List Char`); the
  functions of `strings` used by `cleanInput` read their argument rune by rune.
-/

namespace pokecache

/-- A reading of the monotonic clock, in nanoseconds. -/
abbrev Time := Int

/-- Go `time.Duration`, in nanoseconds. -/
abbrev Duration := Int

/-- Go `[]byte`; `none` is the nil slice. -/
abbrev ByteSlice := Option (List UInt8)

/-- Go `type cacheEntry struct { createdAt time.Time; val []byte }`. -/
structure cacheEntry where
  createdAt : Time
  val : ByteSlice
deriving DecidableEq, Repr

/-- An allocated `map[string]cacheEntry`. -/
abbrev EntryMap := AList (fun _ : String => cacheEntry)

/-- Go `type Cache struct { entry map[string]cacheEntry; mutex sync.Mutex }`.
The mutex carries no data; the lock discipline is treated in `namespace locking`. -/
structure Cache where
  entry : Option EntryMap

/-- Go `time.Since(t)` with the clock reading `now`. -/
def Since (now t : Time) : Duration := now - t

/-- Go `entry, exists := c.entry[key]`: reading a map, nil or not, never panics. -/
def Cache.lookup (c : Cache) (key : String) : Option cacheEntry :=
  match c.entry with
  | none => none
  | some m => m.lookup key

/-- Go `func (c *Cache) Add(key string, val []byte)`; `now` is what `time.Now()`
returns.  Assigning into a nil map panics. -/
def Cache.Add (c : Cache) (now : Time) (key : String) (val : ByteSlice) : Except String Cache :=
  let entry : cacheEntry := { createdAt := now, val := val }
  match c.entry with
  | none => .error "assignment to entry in nil map"
  | some m => .ok { entry := some (m.insert key entry) }

/-- Go `func (c *Cache) Get(key string) ([]byte, bool)`, in state-passing style:
the result and the cache after the call. -/
def Cache.Get (c : Cache) (key : String) : (ByteSlice × Bool) × Cache :=
  match c.lookup key with
  | none => ((none, false), c)
  | some entry => ((entry.val, true), c)

/-- One iteration of `for k, v := range c.entry { if time.Since(v.createdAt) > interval { delete(c.entry, k) } }`. -/
def reapBody (now : Time) (interval : Duration) (m : EntryMap)
    (kv : Sigma (fun _ : String => cacheEntry)) : EntryMap :=
  if Since now kv.2.createdAt > interval then m.erase kv.1 else m

/-- The locked section of `reapLoop` (lines 48-55): one pass of the range loop over
the map.  The clock is taken to stand still during a pass, so every `time.Since` of
the pass reads `now`.  Ranging over a nil map runs no iteration. -/
def Cache.reapPass (c : Cache) (now : Time) (interval : Duration) : Cache :=
  match c.entry with
  | none => c
  | some m => { entry := some (m.entries.foldl (reapBody now interval) m) }

/-- Go `func (c *Cache) reapLoop(interval)` after its ticker is made: one pass per
tick received, `ticks` being the clock readings at the ticks received so far. -/
def Cache.reapLoop (c : Cache) (interval : Duration) (ticks : List Time) : Cache :=
  ticks.foldl (fun c now => c.reapPass now interval) c

/-- Go `time.NewTicker(d)` called at clock reading `now`: panics for `d <= 0`, and
otherwise its first tick is due at `now + d`. -/
def NewTicker (now : Time) (d : Duration) : Except String Time :=
  if d ≤ 0 then .error "non-positive interval for NewTicker" else .ok (now + d)

/-- A cache together with its sweeper: the cache, the interval the sweeper was
started with, the clock, and the time the next tick is due. -/
structure Sys where
  cache : Cache
  interval : Duration
  now : Time
  nextTick : Time

/-- Go `func NewCache(interval time.Duration) *Cache` together with the goroutine
`cache.reapLoop(interval)` it launches, called at clock reading `now`.  The
goroutine starts with `time.NewTicker(interval)`; a panic there ends the process. -/
def NewCache (now : Time) (interval : Duration) : Except String Sys :=
  let cache : Cache := { entry := some ∅ }
  match NewTicker now interval with
  | .error e => .error e
  | .ok next => .ok { cache := cache, interval := interval, now := now, nextTick := next }

/-- An operation on a cache with the clock reading it is made at. -/
inductive Op where
  | add (now : Time) (key : String) (val : ByteSlice)
  | get (key : String)
  | reap (now : Time) (interval : Duration)
deriving Repr

/-- The key an operation adds, if it is an `Add`. -/
def Op.addedKey : Op → Option String
  | .add _ key _ => some key
  | .get _ => none
  | .reap _ _ => none

/-- Run one operation. -/
def Cache.apply (c : Cache) : Op → Except String Cache
  | .add now key val => c.Add now key val
  | .get key => .ok (c.Get key).2
  | .reap now interval => .ok (c.reapPass now interval)

/-- Run a sequence of operations, stopping at the first panic. -/
def Cache.applyAll (c : Cache) : List Op → Except String Cache
  | [] => .ok c
  | op :: rest =>
    match c.apply op with
    | .error e => .error e
    | .ok c' => c'.applyAll rest

/-- A step of the timed system of a cache and its sweeper. -/
inductive Step where
  | add (key : String) (val : ByteSlice)
  | get (key : String)
  | sweep
  | wait (d : Nat)
deriving Repr

/-- The key a step adds, if it is an `Add`. -/
def Step.addedKey : Step → Option String
  | .add key _ => some key
  | _ => none

/-- One step of the timed system.  `Add` and `Get` run at the current clock reading.
The ticker delivers a tick when the clock reaches `nextTick`, on which `reapLoop`
runs one pass and the next tick is due one interval later; the clock cannot go
past a tick that is due (`wait`).  A step that is not enabled gives `none`. -/
def Sys.step (s : Sys) : Step → Option Sys
  | .add key val =>
    match s.cache.Add s.now key val with
    | .error _ => none
    | .ok c => some { s with cache := c }
  | .get key => some { s with cache := (s.cache.Get key).2 }
  | .sweep =>
    if s.now = s.nextTick then
      some { s with cache := s.cache.reapPass s.now s.interval,
                    nextTick := s.nextTick + s.interval }
    else none
  | .wait d =>
    if s.now + d ≤ s.nextTick then some { s with now := s.now + d } else none

/-- Run a sequence of steps. -/
def Sys.run (s : Sys) : List Step → Option Sys
  | [] => some s
  | st :: rest =>
    match s.step st with
    | none => none
    | some s' => s'.run rest

/-- The invariant of the timed system: the interval is positive, the clock has not
passed the tick that is due, ticks are one interval apart, the map is allocated,
and every entry was stamped at most two intervals before the tick that is due. -/
def Sys.Inv (s : Sys) : Prop :=
  0 < s.interval ∧ s.now ≤ s.nextTick ∧ s.nextTick ≤ s.now + s.interval ∧
  (∃ m, s.cache.entry = some m) ∧
  ∀ k e, s.cache.lookup k = some e → s.nextTick - e.createdAt ≤ 2 * s.interval

/-- A sequence of operations in which `"b"` is never added. -/
def demoOps : List Op :=
  [.add 1 "a" (some [1]), .reap 5 100, .get "b", .add 7 "" none]

/-- A cache holding `"a"`, stamped at clock reading 0. -/
def staleCache : Cache :=
  { entry := some ((∅ : EntryMap).insert "a" { createdAt := 0, val := some [7] }) }

/-- A state of the timed system around `staleCache`, 150 after the stamp. -/
def staleSys : Sys :=
  { cache := staleCache, interval := 100, now := 150, nextTick := 200 }

/-- With interval 100: `Add("a")` at the tick instant 100, the passes at 100 and 200,
and the clock brought to the tick instant 300 before its pass has run. -/
def staleRun : List Step :=
  [.wait 100, .add "a" (some [1]), .sweep, .wait 100, .sweep, .wait 100]

/-- With interval 100: `Add("a")` at 0, the pass at 100, and the clock at 199. -/
def freshRun : List Step :=
  [.add "a" (some [1]), .wait 100, .sweep, .wait 99]

/-- With interval 100ms: after the `Add` a `Get`, then 250ms of waiting with the
passes at 100ms and 200ms. -/
def expiryRun : List Step :=
  [.get "a", .wait 100000000, .sweep, .wait 100000000, .sweep, .wait 50000000]

end pokecache

namespace locking

/-- What a call does to the objects that goroutines share, in program order.  A
mutex and a map are named by their address. -/
inductive Event where
  | lock (mutex : Nat)
  | unlock (mutex : Nat)
  | mapRead (map : Nat)
  | mapWrite (map : Nat)
deriving DecidableEq, Repr

/-- A `Cache` struct value in memory: `entry` is the address of the map its field
refers to (a Go map value is a reference), `mutex` the address of the `sync.Mutex`
that the struct holds by value. -/
structure CacheAt where
  entry : Nat
  mutex : Nat
deriving DecidableEq, Repr

/-- Events of `Add` (lines 20-27): `c.mutex.Lock()`, `c.entry[key] = entry`, and the
deferred `c.mutex.Unlock()`. -/
def Add (c : CacheAt) : List Event :=
  [.lock c.mutex, .mapWrite c.entry, .unlock c.mutex]

/-- Events of `Get` (lines 31-37): `entry, exists := c.entry[key]`. -/
def Get (c : CacheAt) : List Event :=
  [.mapRead c.entry]

/-- Events of one iteration of the range loop of `reapLoop`: the entry is read, and
deleted when `expired`. -/
def reapIter (c : CacheAt) (expired : Bool) : List Event :=
  if expired then [.mapRead c.entry, .mapWrite c.entry] else [.mapRead c.entry]

/-- Events of one pass of `reapLoop` (lines 48-55); `expired` tells, for the entries in
the order ranged over, whether `time.Since(v.createdAt) > interval`. -/
def reapPass (c : CacheAt) (expired : List Bool) : List Event :=
  [.lock c.mutex] ++ (expired.map (reapIter c)).flatten ++ [.unlock c.mutex]

/-- Go `NewCache` (lines 60-64) allocating its struct at `structAt` and the map at
`mapAt`: the struct that the returned pointer refers to, and the receiver of the
sweeper goroutine `go cache.reapLoop(interval)`, which is that same struct. -/
def NewCache (structAt mapAt : Nat) : CacheAt × CacheAt :=
  let cache : CacheAt := { entry := mapAt, mutex := structAt }
  (cache, cache)

/-- The package variable `var cache pokecache.Cache` of main.go, at address `varAt`,
after `cache = *pokecache.NewCache(5 * time.Second)`: the assignment copies the
fields of the struct, so the variable refers to the same map and holds a mutex of
its own. -/
def mainCache (varAt structAt mapAt : Nat) : CacheAt :=
  { entry := (NewCache structAt mapAt).1.entry, mutex := varAt }

/-- Whether every access to the map at `map` happens while the mutex at `mutex` is
held, `held` telling whether it is held at the start. -/
def guardedFrom (mutex map : Nat) : Bool → List Event → Bool
  | _, [] => true
  | held, .lock x :: rest => guardedFrom mutex map (held || x == mutex) rest
  | held, .unlock x :: rest => guardedFrom mutex map (held && !(x == mutex)) rest
  | held, .mapRead y :: rest => (held || !(y == map)) && guardedFrom mutex map held rest
  | held, .mapWrite y :: rest => (held || !(y == map)) && guardedFrom mutex map held rest

/-- Whether a call that starts without the mutex makes every access to the map under it. -/
def guardedBy (mutex map : Nat) (events : List Event) : Bool :=
  guardedFrom mutex map false events

end locking

namespace pokedex

/-- Go `unicode.IsSpace`: the Latin-1 cases of its switch and, above Latin-1, the
ranges of the table `unicode.White_Space`. -/
def IsSpace (r : Char) : Bool :=
  let n := r.toNat
  (0x09 ≤ n && n ≤ 0x0D) || n == 0x20 || n == 0x85 || n == 0xA0 || n == 0x1680 ||
    (0x2000 ≤ n && n ≤ 0x200A) || n == 0x2028 || n == 0x2029 || n == 0x202F ||
    n == 0x205F || n == 0x3000

/-- Go `strings.TrimSpace`: the argument without its leading and trailing white space. -/
def TrimSpace (s : List Char) : List Char :=
  (s.dropWhile IsSpace).rdropWhile IsSpace

/-- Go `unicode.ToLower`: the ASCII case of its code, and above ASCII the lower-case
mapping of the table `unicode.CaseRanges`, which is the argument `caseTable`. -/
def ToLowerRune (caseTable : Char → Char) (r : Char) : Char :=
  if r.toNat ≤ 0x7F then
    if 0x41 ≤ r.toNat ∧ r.toNat ≤ 0x5A then Char.ofNat (r.toNat + 0x20) else r
  else caseTable r

/-- Go `strings.ToLower`: `unicode.ToLower` on every rune. -/
def ToLower (caseTable : Char → Char) (s : List Char) : List Char :=
  s.map (ToLowerRune caseTable)

/-- The scan of Go `strings.Fields`: `field` holds, last rune first, the runes of the
field being read; a white space rune ends it. -/
def fieldsFrom : List Char → List Char → List (List Char)
  | [], field => if field.isEmpty then [] else [field.reverse]
  | r :: rest, field =>
    if IsSpace r then
      if field.isEmpty then fieldsFrom rest [] else field.reverse :: fieldsFrom rest []
    else fieldsFrom rest (r :: field)

/-- Go `strings.Fields`: the argument split around each run of white space, the empty
slice when it holds white space only. -/
def Fields (s : List Char) : List (List Char) :=
  fieldsFrom s []

/-- Go `func cleanInput(text string) []string` of main.go. -/
def cleanInput (caseTable : Char → Char) (text : List Char) : List (List Char) :=
  let text := TrimSpace text
  let text := ToLower caseTable text
  let words := Fields text
  words

/-- Go index expression `words[i]`, which panics out of range. -/
def index (words : List (List Char)) (i : Nat) : Except String (List Char) :=
  match words.get? i with
  | some w => .ok w
  | none => .error "index out of range"

/-- The head of the body of the REPL loop of `main` (lines 367-374) on the line
`user_input`: `words := cleanInput(user_input)`, `command := words[0]`, and
`cfg.arg1`; the result is `(command, cfg.arg1)`. -/
def replHead (caseTable : Char → Char) (user_input : List Char) :
    Except String (List Char × List Char) :=
  let words := cleanInput caseTable user_input
  match index words 0 with
  | .error e => .error e
  | .ok command =>
    if words.length > 1 then
      match index words 1 with
      | .error e => .error e
      | .ok arg1 => .ok (command, arg1)
    else .ok (command, [])

end pokedex

namespace pokecache


theorem lookup_Add (m : EntryMap) (now : Time) (key : String) (val : ByteSlice) (k : String) :
    ∃ c, Cache.Add ⟨some m⟩ now key val = .ok c ∧ (∃ m', c.entry = some m') ∧
      c.lookup k = if k = key then some ⟨now, val⟩ else m.lookup k := by
  refine ⟨_, rfl, ⟨_, rfl⟩, ?_⟩
  by_cases h : k = key
  · subst h; simp [Cache.lookup]
  · simp [Cache.lookup, h, AList.lookup_insert_ne h]

theorem Get_eq (c : Cache) (k : String) :
    (c.Get k).1 = (match c.lookup k with
      | some e => (e.val, true)
      | none => (none, false)) := by
  unfold Cache.Get
  cases c.lookup k <;> rfl

theorem Get_snd (c : Cache) (k : String) : (c.Get k).2 = c := by
  unfold Cache.Get
  cases c.lookup k <;> rfl

open Classical in
/-- What the range loop leaves under key `k`: nothing if it meets an expired entry
for `k`, and otherwise what the map held. -/
theorem foldl_reapBody_lookup (now : Time) (interval : Duration) (k : String) :
    ∀ (l : List (Sigma (fun _ : String => cacheEntry))) (acc : EntryMap),
      (l.foldl (reapBody now interval) acc).lookup k =
        if (∃ e, (⟨k, e⟩ : Sigma (fun _ : String => cacheEntry)) ∈ l ∧ Since now e.createdAt > interval)
        then none else acc.lookup k := by
  intro l
  induction l with
  | nil => intro acc; simp
  | cons kv rest ih =>
    intro acc
    obtain ⟨k0, e0⟩ := kv
    rw [List.foldl_cons, ih]
    by_cases hrest : ∃ e, (⟨k, e⟩ : Sigma (fun _ : String => cacheEntry)) ∈ rest ∧
        Since now e.createdAt > interval
    · have : ∃ e, (⟨k, e⟩ : Sigma (fun _ : String => cacheEntry)) ∈ (⟨k0, e0⟩ :: rest) ∧
          Since now e.createdAt > interval := by
        obtain ⟨e, he, hx⟩ := hrest
        exact ⟨e, List.mem_cons_of_mem _ he, hx⟩
      rw [if_pos hrest, if_pos this]
    · rw [if_neg hrest]
      by_cases hx : Since now e0.createdAt > interval
      · by_cases hk : k = k0
        · subst hk
          have : ∃ e, (⟨k, e⟩ : Sigma (fun _ : String => cacheEntry)) ∈ (⟨k, e0⟩ :: rest) ∧
              Since now e.createdAt > interval := ⟨e0, List.mem_cons_self _ _, hx⟩
          rw [if_pos this]
          simp [reapBody, hx]
        · have : ¬ ∃ e, (⟨k, e⟩ : Sigma (fun _ : String => cacheEntry)) ∈ (⟨k0, e0⟩ :: rest) ∧
              Since now e.createdAt > interval := by
            rintro ⟨e, he, hxe⟩
            rcases List.mem_cons.mp he with h | h
            · exact hk (by cases h; rfl)
            · exact hrest ⟨e, h, hxe⟩
          rw [if_neg this]
          simp [reapBody, hx, AList.lookup_erase_ne hk]
      · have : ¬ ∃ e, (⟨k, e⟩ : Sigma (fun _ : String => cacheEntry)) ∈ (⟨k0, e0⟩ :: rest) ∧
            Since now e.createdAt > interval := by
          rintro ⟨e, he, hxe⟩
          rcases List.mem_cons.mp he with h | h
          · cases h; exact hx hxe
          · exact hrest ⟨e, h, hxe⟩
        rw [if_neg this]
        simp [reapBody, hx]

theorem lookup_reapPass (c : Cache) (now : Time) (interval : Duration) (k : String) :
    (c.reapPass now interval).lookup k =
      match c.lookup k with
      | some e => if Since now e.createdAt > interval then none else some e
      | none => none := by
  cases c with
  | mk entry =>
    cases entry with
    | none => rfl
    | some m =>
      simp only [Cache.reapPass, Cache.lookup]
      rw [foldl_reapBody_lookup]
      cases hl : m.lookup k with
      | none =>
        have hnot : ¬ ∃ e, (⟨k, e⟩ : Sigma (fun _ : String => cacheEntry)) ∈ m.entries ∧
            Since now e.createdAt > interval := by
          rintro ⟨e, he, _⟩
          have := AList.mem_lookup_iff.mpr he
          rw [hl] at this
          exact Option.noConfusion this
        rw [if_neg hnot]
      | some e =>
        by_cases hx : Since now e.createdAt > interval
        · have : ∃ e, (⟨k, e⟩ : Sigma (fun _ : String => cacheEntry)) ∈ m.entries ∧
              Since now e.createdAt > interval :=
            ⟨e, AList.mem_lookup_iff.mp (by rw [hl]; exact rfl), hx⟩
          rw [if_pos this]; simp [hx]
        · have hnot : ¬ ∃ e, (⟨k, e⟩ : Sigma (fun _ : String => cacheEntry)) ∈ m.entries ∧
              Since now e.createdAt > interval := by
            rintro ⟨e', he', hx'⟩
            have h2 := AList.mem_lookup_iff.mpr he'
            rw [hl] at h2
            have : e = e' := by
              have h3 : e' ∈ some e := h2
              exact Option.mem_some_iff.mp h3
            exact hx (this ▸ hx')
          rw [if_neg hnot]; simp [hx]

theorem applyAll_allocated (ops : List Op) :
    ∀ m : EntryMap, ∃ m', Cache.applyAll ⟨some m⟩ ops = .ok ⟨some m'⟩ := by
  induction ops with
  | nil => intro m; exact ⟨m, rfl⟩
  | cons op rest ih =>
    intro m
    cases op with
    | add now key val => exact ih _
    | get key =>
      obtain ⟨m', hm'⟩ := ih m
      refine ⟨m', ?_⟩
      simp only [Cache.applyAll, Cache.apply, Get_snd]
      exact hm'
    | reap now interval => exact ih _

theorem applyAll_never_added (k : String) (ops : List Op)
    (hk : ∀ op ∈ ops, op.addedKey ≠ some k) :
    ∀ m : EntryMap, m.lookup k = none →
      ∃ c, Cache.applyAll ⟨some m⟩ ops = .ok c ∧ c.lookup k = none := by
  induction ops with
  | nil => intro m hm; exact ⟨_, rfl, hm⟩
  | cons op rest ih =>
    have hrest : ∀ op ∈ rest, op.addedKey ≠ some k :=
      fun o ho => hk o (List.mem_cons_of_mem _ ho)
    have hop := hk op (List.mem_cons_self _ _)
    intro m hm
    cases op with
    | add now key val =>
      have hne : k ≠ key := fun h => hop (by simp [Op.addedKey, h])
      exact ih hrest _ (by rw [AList.lookup_insert_ne hne]; exact hm)
    | get key =>
      obtain ⟨c, hc, hl⟩ := ih hrest m hm
      refine ⟨c, ?_, hl⟩
      simp only [Cache.applyAll, Cache.apply, Get_snd]
      exact hc
    | reap now interval =>
      have h := lookup_reapPass ⟨some m⟩ now interval k
      have hm0 : (Cache.mk (some m)).lookup k = none := hm
      rw [hm0] at h
      exact ih hrest _ h

theorem NewCache_pos (t0 : Time) (T : Duration) (hT : 0 < T) :
    NewCache t0 T = .ok ⟨⟨some ∅⟩, T, t0, t0 + T⟩ := by
  have : ¬ T ≤ 0 := not_le.mpr hT
  simp [NewCache, NewTicker, this]

theorem NewCache_ok_inv (t0 : Time) (T : Duration) (s0 : Sys) (h : NewCache t0 T = .ok s0) :
    0 < T ∧ s0 = ⟨⟨some ∅⟩, T, t0, t0 + T⟩ := by
  by_cases hT : 0 < T
  · rw [NewCache_pos t0 T hT] at h
    exact ⟨hT, (Except.ok.inj h).symm⟩
  · have : T ≤ 0 := not_lt.mp hT
    simp [NewCache, NewTicker, this] at h

theorem Inv_step (s s' : Sys) (st : Step) (hinv : s.Inv) (h : s.step st = some s') :
    s'.Inv ∧ s'.interval = s.interval := by
  obtain ⟨hpos, hle, hnext, ⟨m, hm⟩, hent⟩ := hinv
  obtain ⟨c, T, now, next⟩ := s
  obtain ⟨entry⟩ := c
  simp only at hm hpos hle hnext hent
  subst hm
  cases st with
  | add key val =>
    simp only [Sys.step, Cache.Add] at h
    cases h
    refine ⟨⟨hpos, hle, hnext, ⟨_, rfl⟩, ?_⟩, rfl⟩
    intro k e hk
    simp only [Cache.lookup] at hk
    by_cases hkk : k = key
    · subst hkk
      rw [AList.lookup_insert] at hk
      cases hk
      simp only
      linarith
    · rw [AList.lookup_insert_ne hkk] at hk
      exact hent k e hk
  | get key =>
    simp only [Sys.step, Get_snd] at h
    cases h
    exact ⟨⟨hpos, hle, hnext, ⟨_, rfl⟩, hent⟩, rfl⟩
  | sweep =>
    simp only [Sys.step] at h
    split at h
    · rename_i heq
      cases h
      try dsimp only at heq
      refine ⟨⟨hpos, by simp only; linarith, by simp only; linarith, ⟨_, rfl⟩, ?_⟩, rfl⟩
      intro k e hk
      have hl := lookup_reapPass ⟨some m⟩ now T k
      simp only at hk
      rw [hk] at hl
      cases hlk : (Cache.mk (some m)).lookup k with
      | none => rw [hlk] at hl; exact Option.noConfusion hl
      | some e0 =>
        rw [hlk] at hl
        simp only at hl
        split at hl
        · exact Option.noConfusion hl
        · rename_i hnot
          cases hl
          simp only [Since] at hnot
          simp only
          linarith
    · exact Option.noConfusion h
  | wait d =>
    simp only [Sys.step] at h
    split at h
    · rename_i hd
      cases h
      try dsimp only at hd
      have hd0 : (0 : Int) ≤ (d : Int) := Int.ofNat_nonneg d
      exact ⟨⟨hpos, hd, by simp only; linarith, ⟨_, rfl⟩, hent⟩, rfl⟩
    · exact Option.noConfusion h

theorem Inv_run (steps : List Step) :
    ∀ (s s' : Sys), s.Inv → s.run steps = some s' → s'.Inv ∧ s'.interval = s.interval := by
  induction steps with
  | nil =>
    intro s s' hinv h
    simp only [Sys.run] at h
    cases h
    exact ⟨hinv, rfl⟩
  | cons st rest ih =>
    intro s s' hinv h
    simp only [Sys.run] at h
    cases hst : s.step st with
    | none => rw [hst] at h; exact Option.noConfusion h
    | some s1 =>
      rw [hst] at h
      obtain ⟨h1, hi1⟩ := Inv_step s s1 st hinv hst
      obtain ⟨h2, hi2⟩ := ih s1 s' h1 h
      exact ⟨h2, hi2.trans hi1⟩

theorem Inv_NewCache (t0 : Time) (T : Duration) (s0 : Sys) (h : NewCache t0 T = .ok s0) :
    s0.Inv ∧ s0.interval = T := by
  obtain ⟨hT, rfl⟩ := NewCache_ok_inv t0 T s0 h
  refine ⟨⟨hT, by simp only; linarith, le_refl _, ⟨_, rfl⟩, ?_⟩, rfl⟩
  intro k e hk
  simp [Cache.lookup] at hk

theorem stamp_step (k : String) (t : Time) (s s' : Sys) (st : Step)
    (hst : st.addedKey ≠ some k)
    (hs : ∀ e, s.cache.lookup k = some e → e.createdAt = t)
    (h : s.step st = some s') :
    ∀ e, s'.cache.lookup k = some e → e.createdAt = t := by
  obtain ⟨c, T, now, next⟩ := s
  cases st with
  | add key val =>
    have hne : k ≠ key := fun hk => hst (by simp [Step.addedKey, hk])
    obtain ⟨entry⟩ := c
    cases entry with
    | none => simp [Sys.step, Cache.Add] at h
    | some m =>
      simp only [Sys.step, Cache.Add] at h
      cases h
      intro e he
      simp only [Cache.lookup] at he
      rw [AList.lookup_insert_ne hne] at he
      exact hs e he
  | get key =>
    simp only [Sys.step, Get_snd] at h
    cases h
    exact hs
  | sweep =>
    simp only [Sys.step] at h
    split at h
    · cases h
      intro e he
      have hl := lookup_reapPass c now T k
      simp only at he
      rw [he] at hl
      cases hlk : c.lookup k with
      | none => rw [hlk] at hl; exact Option.noConfusion hl
      | some e0 =>
        rw [hlk] at hl
        simp only at hl
        split at hl
        · exact Option.noConfusion hl
        · cases hl
          exact hs e hlk
    · exact Option.noConfusion h
  | wait d =>
    simp only [Sys.step] at h
    split at h
    · cases h
      exact hs
    · exact Option.noConfusion h

theorem stamp_run (k : String) (t : Time) (steps : List Step) :
    ∀ (s s' : Sys), (∀ st ∈ steps, st.addedKey ≠ some k) →
      (∀ e, s.cache.lookup k = some e → e.createdAt = t) →
      s.run steps = some s' →
      ∀ e, s'.cache.lookup k = some e → e.createdAt = t := by
  induction steps with
  | nil =>
    intro s s' _ hs h
    simp only [Sys.run] at h
    cases h
    exact hs
  | cons st rest ih =>
    intro s s' hno hs h
    simp only [Sys.run] at h
    cases hst : s.step st with
    | none => rw [hst] at h; exact Option.noConfusion h
    | some s1 =>
      rw [hst] at h
      exact ih s1 s' (fun x hx => hno x (List.mem_cons_of_mem _ hx))
        (stamp_step k t s s1 st (hno st (List.mem_cons_self _ _)) hs hst) h

theorem step_add_stamp (s s' : Sys) (k : String) (v : ByteSlice)
    (h : s.step (.add k v) = some s') :
    s'.now = s.now ∧ ∀ e, s'.cache.lookup k = some e → e.createdAt = s.now := by
  obtain ⟨c, T, now, next⟩ := s
  obtain ⟨entry⟩ := c
  cases entry with
  | none => simp [Sys.step, Cache.Add] at h
  | some m =>
    simp only [Sys.step, Cache.Add] at h
    cases h
    refine ⟨rfl, ?_⟩
    intro e he
    simp only [Cache.lookup] at he
    rw [AList.lookup_insert] at he
    cases he
    rfl

/-- C1: on every cache with an allocated store `m` (holding `k` or not), for every key
and payload, `Add(k, v)` succeeds and `Get(k)` on the resulting state returns
`(v, true)`; and after `Add(k, v1)` then `Add(k, v2)`, `Get(k)` returns `(v2, true)`. -/
theorem C1_add_then_get (m : EntryMap) (k : String) (v v1 v2 : ByteSlice) (now now1 now2 : Time) :
    (∃ c, Cache.Add ⟨some m⟩ now k v = .ok c ∧ (c.Get k).1 = (v, true)) ∧
    (∃ c1 c2, Cache.Add ⟨some m⟩ now1 k v1 = .ok c1 ∧ c1.Add now2 k v2 = .ok c2 ∧
      (c2.Get k).1 = (v2, true)) := by
  constructor
  · refine ⟨_, rfl, ?_⟩
    rw [Get_eq]
    simp [Cache.lookup]
  · refine ⟨_, _, rfl, rfl, ?_⟩
    rw [Get_eq]
    simp [Cache.lookup]

/-- C2: `Get(k)` returns `(payload, true)` when `k` is present in the store and
`(nil, false)` otherwise; and on the cache made by `NewCache`, after any sequence of
operations none of which is an `Add` of `k`, `Get(k)` returns `(nil, false)`. -/
theorem C2_get_hit_iff_present (c : Cache) (k0 : String) (t0 : Time) (T : Duration)
    (ops : List Op) (k : String) (hT : 0 < T)
    (hnever : ∀ op ∈ ops, op.addedKey ≠ some k) :
    ((c.Get k0).1 = (match c.lookup k0 with
      | some e => (e.val, true)
      | none => (none, false))) ∧
    (∃ s0 c', NewCache t0 T = .ok s0 ∧ s0.cache.applyAll ops = .ok c' ∧
      (c'.Get k).1 = (none, false)) := by
  refine ⟨Get_eq c k0, ?_⟩
  obtain ⟨c', hc', hl⟩ := applyAll_never_added k ops hnever ∅ (AList.lookup_empty k)
  refine ⟨_, c', NewCache_pos t0 T hT, hc', ?_⟩
  rw [Get_eq, hl]

/-- C2 at `demoOps` and the key `"b"`, with the interval 100. -/
theorem C2_get_hit_iff_present_witness :
    (0 : Duration) < 100 ∧ (∀ op ∈ demoOps, op.addedKey ≠ some "b") ∧
    ((staleCache.Get "a").1 = (match staleCache.lookup "a" with
      | some e => (e.val, true)
      | none => (none, false))) ∧
    (∃ s0 c', NewCache 0 100 = .ok s0 ∧ s0.cache.applyAll demoOps = .ok c' ∧
      (c'.Get "b").1 = (none, false)) :=
  ⟨by decide, by decide,
    C2_get_hit_iff_present staleCache "a" 0 100 demoOps "b" (by decide) (by decide)⟩

/-- C3: `Get` returns the cache it was given, unchanged, and as a step of the timed
system it changes nothing at all; it takes no clock reading, and an entry that is
present is returned with `found = true` even when its age exceeds the ttl. -/
theorem C3_get_frame (c : Cache) (k : String) (s : Sys) :
    (c.Get k).2 = c ∧ s.step (.get k) = some s ∧
    ∀ (e : cacheEntry) (now : Time) (ttl : Duration),
      c.lookup k = some e → Since now e.createdAt > ttl → (c.Get k).1 = (e.val, true) := by
  refine ⟨Get_snd c k, ?_, ?_⟩
  · simp [Sys.step, Get_snd]
  · intro e now ttl he _
    rw [Get_eq, he]

/-- C3 at `staleCache`: the entry under `"a"` is 1000 old with a ttl of 100, and `Get`
returns it. -/
theorem C3_get_frame_witness :
    staleCache.lookup "a" = some { createdAt := 0, val := some [7] } ∧
    Since 1000 0 > 100 ∧ (staleCache.Get "a").1 = (some [7], true) :=
  ⟨by decide, by decide,
    (C3_get_frame staleCache "a" staleSys).2.2 { createdAt := 0, val := some [7] } 1000 100
      (by decide) (by decide)⟩

/-- C4: after one sweep pass at clock reading `now` with threshold `T`, the store holds
under each key what it held before if that entry has age at most `T`, and nothing
otherwise; so an `Add(k, v)` at `tAdd` followed by a pass with `now - tAdd <= T` and
then `Get(k)` returns `(v, true)`. -/
theorem C4_sweep_pass (c : Cache) (now : Time) (T : Duration) (k : String) :
    ((c.reapPass now T).lookup k =
      match c.lookup k with
      | some e => if Since now e.createdAt > T then none else some e
      | none => none) ∧
    ∀ (m : EntryMap) (tAdd : Time) (v : ByteSlice), Since now tAdd ≤ T →
      ∃ c1, Cache.Add ⟨some m⟩ tAdd k v = .ok c1 ∧
        ((c1.reapPass now T).Get k).1 = (v, true) := by
  refine ⟨lookup_reapPass c now T k, ?_⟩
  intro m tAdd v hage
  refine ⟨_, rfl, ?_⟩
  rw [Get_eq, lookup_reapPass]
  have hnot : ¬ Since now tAdd > T := not_lt.mpr hage
  simp [Cache.lookup, hnot]

/-- C4 at an `Add("a", [1,2,3])` at 100 and a pass at 150 with threshold 100. -/
theorem C4_sweep_pass_witness :
    Since 150 100 ≤ 100 ∧
    ∃ c1, Cache.Add ⟨some ∅⟩ 100 "a" (some [1, 2, 3]) = .ok c1 ∧
      ((c1.reapPass 150 100).Get "a").1 = (some [1, 2, 3], true) :=
  ⟨by decide, (C4_sweep_pass staleCache 150 100 "a").2 ∅ 100 (some [1, 2, 3]) (by decide)⟩

/-- C5: in the timed system started by `NewCache(T)`, if `Add(k, v)` runs at time `t`,
no later step adds `k`, and the clock then reads more than `t + 2T`, `Get(k)` returns
`(nil, false)`. -/
theorem C5_expiry (t0 : Time) (T : Duration) (pre post : List Step) (k : String)
    (v : ByteSlice) (s0 s1 s2 s3 : Sys)
    (h0 : NewCache t0 T = .ok s0) (h1 : s0.run pre = some s1)
    (h2 : s1.step (.add k v) = some s2) (h3 : s2.run post = some s3)
    (hno : ∀ st ∈ post, st.addedKey ≠ some k)
    (hlate : s3.now > s1.now + 2 * T) :
    (s3.cache.Get k).1 = (none, false) := by
  obtain ⟨hi0, hT0⟩ := Inv_NewCache t0 T s0 h0
  obtain ⟨hi1, hT1⟩ := Inv_run pre s0 s1 hi0 h1
  obtain ⟨hi2, hT2⟩ := Inv_step s1 s2 (.add k v) hi1 h2
  obtain ⟨hi3, hT3⟩ := Inv_run post s2 s3 hi2 h3
  obtain ⟨_, hstamp2⟩ := step_add_stamp s1 s2 k v h2
  have hstamp3 := stamp_run k s1.now post s2 s3 hno hstamp2 h3
  have hT : s3.interval = T := by rw [hT3, hT2, hT1, hT0]
  obtain ⟨_, hle, _, _, hent⟩ := hi3
  rw [Get_eq]
  cases hl : s3.cache.lookup k with
  | none => rfl
  | some e =>
    exfalso
    have hc := hstamp3 e hl
    have hb := hent k e hl
    rw [hT, hc] at hb
    linarith

/-- C5 at `T = 100ms`: `Add("a", [1,2,3])` at creation, where `Get("a")` returns
`([1,2,3], true)`, then `expiryRun`, which ends 250ms later, where `Get("a")` returns
`(nil, false)`. -/
theorem C5_expiry_witness :
    ∃ s0 s1 s2 s3 : Sys, NewCache 0 100000000 = .ok s0 ∧ s0.run [] = some s1 ∧
      s1.step (.add "a" (some [1, 2, 3])) = some s2 ∧ s2.run expiryRun = some s3 ∧
      (∀ st ∈ expiryRun, st.addedKey ≠ some "a") ∧ s3.now > s1.now + 2 * 100000000 ∧
      s3.now = 250000000 ∧
      (s2.cache.Get "a").1 = (some [1, 2, 3], true) ∧
      (s3.cache.Get "a").1 = (none, false) :=
  ⟨_, _, _, _, rfl, rfl, rfl, rfl, by decide, by decide, rfl, rfl,
    C5_expiry 0 100000000 [] expiryRun "a" (some [1, 2, 3]) _ _ _ _ rfl rfl rfl rfl
      (by decide) (by decide)⟩

/-- C6 as stated fails: with interval 100, after `staleRun` the clock reads 300 and the
store still holds the entry stamped at 100, which is not later than `300 - 2 * 100`. -/
theorem C6_strict_bound_fails :
    ∃ (s0 s : Sys) (e : cacheEntry), NewCache 0 100 = .ok s0 ∧ s0.run staleRun = some s ∧
      s.now = 300 ∧ s.interval = 100 ∧ s.cache.lookup "a" = some e ∧ e.createdAt = 100 ∧
      ¬ (e.createdAt > s.now - 2 * s.interval) :=
  ⟨_, _, { createdAt := 100, val := some [1] }, rfl, rfl, rfl, rfl, rfl, rfl, by decide⟩

/-- C6 (amended): in every state of the timed system started by `NewCache(T)`, every
entry present has `createdAt >= now - 2T`, and `createdAt > now - 2T` whenever no tick
is due at the current clock reading. -/
theorem C6_staleness_bound (t0 : Time) (T : Duration) (steps : List Step) (s0 s : Sys)
    (k : String) (e : cacheEntry)
    (h0 : NewCache t0 T = .ok s0) (hrun : s0.run steps = some s)
    (hk : s.cache.lookup k = some e) :
    e.createdAt ≥ s.now - 2 * T ∧ (s.now < s.nextTick → e.createdAt > s.now - 2 * T) := by
  obtain ⟨hi0, hT0⟩ := Inv_NewCache t0 T s0 h0
  obtain ⟨hi, hT1⟩ := Inv_run steps s0 s hi0 hrun
  have hT : s.interval = T := by rw [hT1, hT0]
  obtain ⟨_, hle, _, _, hent⟩ := hi
  have hb := hent k e hk
  rw [hT] at hb
  constructor
  · show s.now - 2 * T ≤ e.createdAt
    linarith
  · intro hlt
    show s.now - 2 * T < e.createdAt
    linarith

/-- C6 (amended) at interval 100 after `freshRun`: the clock reads 199, no tick is due,
and the entry stamped at 0 is later than `199 - 2 * 100`. -/
theorem C6_staleness_bound_witness :
    ∃ (s0 s : Sys), NewCache 0 100 = .ok s0 ∧ s0.run freshRun = some s ∧
      s.cache.lookup "a" = some { createdAt := 0, val := some [1] } ∧
      s.now = 199 ∧ s.nextTick = 200 ∧
      ((0 : Time) ≥ s.now - 2 * 100 ∧ (s.now < s.nextTick → (0 : Time) > s.now - 2 * 100)) :=
  ⟨_, _, rfl, rfl, rfl, rfl, rfl,
    C6_staleness_bound 0 100 freshRun _ _ "a" { createdAt := 0, val := some [1] } rfl rfl rfl⟩

/-- C7 as stated fails: with the interval 0 the ticker of the sweeper panics. -/
theorem C7_zero_interval_panics :
    NewCache 0 0 = .error "non-positive interval for NewTicker" ∧
    (∀ s0, NewCache 0 0 ≠ .ok s0) ∧
    NewCache 0 (-1) = .error "non-positive interval for NewTicker" :=
  ⟨rfl, fun s0 h => absurd h (by simp [NewCache, NewTicker]), rfl⟩

/-- C7 (amended): for every positive interval `NewCache` and the ticker of its sweeper
are set up without panic, and on the cache it returns every sequence of `Add`, `Get`
and sweep passes runs to the end without panic. -/
theorem C7_total_for_positive_interval (t0 : Time) (T : Duration) (ops : List Op)
    (hT : 0 < T) :
    ∃ s0 c, NewCache t0 T = .ok s0 ∧ s0.cache.applyAll ops = .ok c := by
  obtain ⟨m', hm'⟩ := applyAll_allocated ops ∅
  exact ⟨_, _, NewCache_pos t0 T hT, hm'⟩

/-- C7 (amended) at the interval 100 and `demoOps`. -/
theorem C7_total_for_positive_interval_witness :
    (0 : Duration) < 100 ∧
    ∃ s0 c, NewCache 0 100 = .ok s0 ∧ s0.cache.applyAll demoOps = .ok c :=
  ⟨by decide, C7_total_for_positive_interval 0 100 demoOps (by decide)⟩

/-- C9: `Add(k, v)` on a cache with an allocated store succeeds and leaves every other
key as it was: for `k' ≠ k` the entry under `k'` (presence, payload, `createdAt`) and
the result of `Get(k')` are the same before and after; and the keys present after the
`Add` are the old ones and `k`. -/
theorem C9_add_frame (m : EntryMap) (now : Time) (k : String) (v : ByteSlice) (k' : String)
    (hne : k' ≠ k) :
    ∃ c, Cache.Add ⟨some m⟩ now k v = .ok c ∧
      c.lookup k' = (Cache.mk (some m)).lookup k' ∧
      (c.Get k').1 = ((Cache.mk (some m)).Get k').1 ∧
      (∀ x, (c.lookup x).isSome = true ↔
        (x = k ∨ ((Cache.mk (some m)).lookup x).isSome = true)) := by
  have hl : (Cache.mk (some (AList.insert k ⟨now, v⟩ m))).lookup k' =
      (Cache.mk (some m)).lookup k' := by
    simp only [Cache.lookup]
    exact AList.lookup_insert_ne hne
  refine ⟨_, rfl, hl, ?_, ?_⟩
  · rw [Get_eq, Get_eq, hl]
  · intro x
    simp only [Cache.lookup]
    by_cases hx : x = k
    · subst hx
      simp
    · rw [AList.lookup_insert_ne hx]
      simp [hx]

/-- C9 at `Add("b", [9])` on `staleCache`, looking at the key `"a"`. -/
theorem C9_add_frame_witness :
    "a" ≠ "b" ∧
    ∃ c, Cache.Add staleCache 5 "b" (some [9]) = .ok c ∧
      c.lookup "a" = staleCache.lookup "a" ∧
      (c.Get "a").1 = (staleCache.Get "a").1 ∧
      (∀ x, (c.lookup x).isSome = true ↔ (x = "b" ∨ (staleCache.lookup x).isSome = true)) :=
  ⟨by decide,
    C9_add_frame ((∅ : EntryMap).insert "a" { createdAt := 0, val := some [7] }) 5 "b"
      (some [9]) "a" (by decide)⟩

end pokecache

namespace locking

theorem guardedFrom_reapIters (c : CacheAt) (expired : List Bool) (rest : List Event) :
    guardedFrom c.mutex c.entry true ((expired.map (reapIter c)).flatten ++ rest) =
      guardedFrom c.mutex c.entry true rest := by
  induction expired with
  | nil => rfl
  | cons x xs ih =>
    cases x <;> simp [reapIter, guardedFrom, ih]

/-- C8 on the code: `Get` reads the map under no mutex at all, while `Add` and the pass of
the sweeper each access it under the mutex of their receiver; and in main.go, where the
struct of `NewCache` is at address 1, its map at 0 and the package variable `cache` at
2, `cache.Add` runs under the mutex at 2 and not under the mutex at 1 that the sweeper
locks, whose pass in turn does not run under the mutex at 2. -/
theorem C8_get_takes_no_lock :
    (∀ (c : CacheAt) (mutex : Nat), guardedBy mutex c.entry (Get c) = false) ∧
    (∀ c : CacheAt, guardedBy c.mutex c.entry (Add c) = true) ∧
    (∀ (c : CacheAt) (expired : List Bool),
      guardedBy c.mutex c.entry (reapPass c expired) = true) ∧
    (mainCache 2 1 0).entry = (NewCache 1 0).2.entry ∧
    guardedBy 2 0 (Add (mainCache 2 1 0)) = true ∧
    guardedBy 1 0 (Add (mainCache 2 1 0)) = false ∧
    guardedBy 1 0 (reapPass (NewCache 1 0).2 [true]) = true ∧
    guardedBy 2 0 (reapPass (NewCache 1 0).2 [true]) = false := by
  refine ⟨?_, ?_, ?_, by decide, by decide, by decide, by decide, by decide⟩
  · intro c mutex
    simp [guardedBy, guardedFrom, Get]
  · intro c
    simp [guardedBy, guardedFrom, Add]
  · intro c expired
    have h : guardedBy c.mutex c.entry (reapPass c expired) =
        guardedFrom c.mutex c.entry true
          ((expired.map (reapIter c)).flatten ++ [Event.unlock c.mutex]) := by
      simp [guardedBy, reapPass, guardedFrom]
    rw [h, guardedFrom_reapIters]
    simp [guardedFrom]

end locking

namespace pokedex

theorem IsSpace_ascii_upper (n : Nat) (ha : 0x41 ≤ n) (hb : n ≤ 0x5A) :
    IsSpace (Char.ofNat (n + 0x20)) = false ∧ IsSpace (Char.ofNat n) = false := by
  interval_cases n <;> decide

theorem ToLowerRune_space (tbl : Char → Char) (htbl : ∀ c, IsSpace (tbl c) = IsSpace c) (r : Char) :
    IsSpace (ToLowerRune tbl r) = IsSpace r := by
  unfold ToLowerRune
  split
  · split
    · rename_i h1 h2
      obtain ⟨h3, h4⟩ := IsSpace_ascii_upper r.toNat h2.1 h2.2
      rw [Char.ofNat_toNat] at h4
      rw [h3, h4]
    · rfl
  · exact htbl r

theorem fieldsFrom_eq_nil (s : List Char) :
    ∀ field, fieldsFrom s field = [] ↔ field = [] ∧ ∀ c ∈ s, IsSpace c = true := by
  induction s with
  | nil =>
    intro field
    cases field <;> simp [fieldsFrom]
  | cons r rest ih =>
    intro field
    by_cases hr : IsSpace r = true
    · cases field with
      | nil => simp [fieldsFrom, hr, ih]
      | cons a l => simp [fieldsFrom, hr]
    · simp [fieldsFrom, hr, ih]

theorem fieldsFrom_mem (s : List Char) :
    ∀ field w, (∀ c ∈ field, IsSpace c = false) → w ∈ fieldsFrom s field →
      w ≠ [] ∧ ∀ c ∈ w, IsSpace c = false ∧ (c ∈ field ∨ c ∈ s) := by
  induction s with
  | nil =>
    intro field w hf hw
    cases field with
    | nil => simp [fieldsFrom] at hw
    | cons a l =>
      simp only [fieldsFrom, List.isEmpty_cons, Bool.false_eq_true, if_false, List.mem_singleton] at hw
      subst hw
      refine ⟨by simp, ?_⟩
      intro c hc
      have hc' : c ∈ a :: l := List.mem_reverse.mp hc
      exact ⟨hf c hc', Or.inl hc'⟩
  | cons r rest ih =>
    intro field w hf hw
    by_cases hr : IsSpace r = true
    · cases field with
      | nil =>
        simp only [fieldsFrom, hr, if_true, List.isEmpty_nil] at hw
        obtain ⟨h1, h2⟩ := ih [] w (by simp) hw
        refine ⟨h1, fun c hc => ?_⟩
        obtain ⟨h3, h4⟩ := h2 c hc
        rcases h4 with h4 | h4
        · simp at h4
        · exact ⟨h3, Or.inr (List.mem_cons_of_mem _ h4)⟩
      | cons a l =>
        simp only [fieldsFrom, hr, if_true, List.isEmpty_cons, Bool.false_eq_true, if_false,
          List.mem_cons] at hw
        rcases hw with hw | hw
        · subst hw
          refine ⟨by simp, ?_⟩
          intro c hc
          have hc' : c ∈ a :: l := List.mem_reverse.mp hc
          exact ⟨hf c hc', Or.inl hc'⟩
        · obtain ⟨h1, h2⟩ := ih [] w (by simp) hw
          refine ⟨h1, fun c hc => ?_⟩
          obtain ⟨h3, h4⟩ := h2 c hc
          rcases h4 with h4 | h4
          · simp at h4
          · exact ⟨h3, Or.inr (List.mem_cons_of_mem _ h4)⟩
    · have hr' : IsSpace r = false := by simpa using hr
      simp only [fieldsFrom, hr', Bool.false_eq_true, if_false] at hw
      have hf' : ∀ c ∈ r :: field, IsSpace c = false := by
        intro c hc
        rcases List.mem_cons.mp hc with h | h
        · rw [h]; exact hr'
        · exact hf c h
      obtain ⟨h1, h2⟩ := ih (r :: field) w hf' hw
      refine ⟨h1, fun c hc => ?_⟩
      obtain ⟨h3, h4⟩ := h2 c hc
      rcases h4 with h4 | h4
      · rcases List.mem_cons.mp h4 with h | h
        · exact ⟨h3, Or.inr (by rw [h]; exact List.mem_cons_self _ _)⟩
        · exact ⟨h3, Or.inl h⟩
      · exact ⟨h3, Or.inr (List.mem_cons_of_mem _ h4)⟩

theorem TrimSpace_subset (s : List Char) : ∀ c ∈ TrimSpace s, c ∈ s := by
  intro c hc
  unfold TrimSpace at hc
  have h1 := ( List.rdropWhile_prefix IsSpace (s.dropWhile IsSpace)).subset hc
  exact ( List.dropWhile_suffix IsSpace).subset h1

theorem TrimSpace_all_space (s : List Char) :
    (∀ c ∈ TrimSpace s, IsSpace c = true) ↔ ∀ c ∈ s, IsSpace c = true := by
  constructor
  · intro h
    by_contra hcon
    have hne : s.dropWhile IsSpace ≠ [] := by
      intro hnil
      exact hcon (List.dropWhile_eq_nil_iff.mp hnil)
    obtain ⟨a, t, hat⟩ := List.exists_cons_of_ne_nil hne
    have ha : IsSpace a = false := by
      have := List.head_dropWhile_not IsSpace s hne
      simpa [hat] using this
    have hne2 : TrimSpace s ≠ [] := by
      intro hnil
      unfold TrimSpace at hnil
      rw [hat] at hnil
      have := List.rdropWhile_eq_nil_iff.mp hnil a (List.mem_cons_self _ _)
      rw [ha] at this
      exact Bool.noConfusion this
    obtain ⟨b, u, hbu⟩ := List.exists_cons_of_ne_nil hne2
    have hpre : TrimSpace s <+: a :: t := by
      unfold TrimSpace
      rw [hat]
      exact List.rdropWhile_prefix IsSpace (a :: t)
    rw [hbu] at hpre
    obtain ⟨r, hr⟩ := hpre
    have hab : b = a := by
      simp only [List.cons_append, List.cons.injEq] at hr
      exact hr.1
    have hb := h b (by rw [hbu]; exact List.mem_cons_self _ _)
    rw [hab, ha] at hb
    exact Bool.noConfusion hb
  · intro h c hc
    exact h c (TrimSpace_subset s c hc)


theorem cleanInput_eq_nil (tbl : Char → Char) (htbl : ∀ c, IsSpace (tbl c) = IsSpace c)
    (text : List Char) :
    cleanInput tbl text = [] ↔ ∀ c ∈ text, IsSpace c = true := by
  unfold cleanInput Fields
  rw [fieldsFrom_eq_nil, ← TrimSpace_all_space text]
  simp only [true_and, ToLower, List.mem_map, forall_exists_index, and_imp,
    forall_apply_eq_imp_iff₂, ToLowerRune_space tbl htbl]

theorem cleanInput_mem (tbl : Char → Char) (text : List Char) (w : List Char)
    (hw : w ∈ cleanInput tbl text) :
    w ≠ [] ∧ ∀ c ∈ w, IsSpace c = false ∧ ∃ c0 ∈ text, c = ToLowerRune tbl c0 := by
  unfold cleanInput Fields at hw
  obtain ⟨h1, h2⟩ := fieldsFrom_mem _ [] w (by simp) hw
  refine ⟨h1, fun c hc => ?_⟩
  obtain ⟨h3, h4⟩ := h2 c hc
  refine ⟨h3, ?_⟩
  rcases h4 with h4 | h4
  · simp at h4
  · obtain ⟨c0, hc0, rfl⟩ := List.mem_map.mp h4
    exact ⟨c0, TrimSpace_subset text c0 hc0, rfl⟩

theorem replHead_ok_iff (tbl : Char → Char) (text : List Char) :
    (∃ r, replHead tbl text = .ok r) ↔ cleanInput tbl text ≠ [] := by
  unfold replHead
  cases hw : cleanInput tbl text with
  | nil => simp [index]
  | cons w rest =>
    cases rest with
    | nil => simp [index]
    | cons w2 rest2 => simp [index]

/-- C10: with a case table that maps no rune to or from white space, `cleanInput(text)` is
empty exactly when every rune of `text` is white space (so also for the empty text);
every word it returns is non-empty, holds no white space, and consists of lower-cased
runes of `text`; and the index `words[0]` of the REPL loop is in bounds exactly when
`text` holds a rune that is not white space. -/
theorem C10_cleanInput_words (caseTable : Char → Char) (text : List Char)
    (htable : ∀ c, IsSpace (caseTable c) = IsSpace c) :
    (cleanInput caseTable text = [] ↔ ∀ c ∈ text, IsSpace c = true) ∧
    (∀ w ∈ cleanInput caseTable text, w ≠ [] ∧
      ∀ c ∈ w, IsSpace c = false ∧ ∃ c0 ∈ text, c = ToLowerRune caseTable c0) ∧
    ((∃ r, replHead caseTable text = .ok r) ↔ ∃ c ∈ text, IsSpace c = false) := by
  refine ⟨cleanInput_eq_nil caseTable htable text,
    fun w hw => cleanInput_mem caseTable text w hw, ?_⟩
  rw [replHead_ok_iff, Ne, cleanInput_eq_nil caseTable htable text]
  constructor
  · intro h
    by_contra hcon
    apply h
    intro c hc
    by_contra hsp
    exact hcon ⟨c, hc, by simpa using hsp⟩
  · rintro ⟨c, hc, hsp⟩ h
    rw [h c hc] at hsp
    exact Bool.noConfusion hsp

/-- C10 with the identity as case table, on the lines `"  Map  Foo\t"` and `" \t "`. -/
theorem C10_cleanInput_words_witness :
    (∀ c, IsSpace (id c) = IsSpace c) ∧
    cleanInput id "  Map  Foo\t".toList = ["map".toList, "foo".toList] ∧
    replHead id "  Map  Foo\t".toList = .ok ("map".toList, "foo".toList) ∧
    cleanInput id " \t ".toList = [] ∧
    ((∃ r, replHead id " \t ".toList = .ok r) ↔ ∃ c ∈ " \t ".toList, IsSpace c = false) :=
  ⟨fun _ => rfl, by decide, by rfl, by decide,
    (C10_cleanInput_words id " \t ".toList (fun _ => rfl)).2.2⟩

end pokedex
